import Mathlib

/-!
Verification of the FKS two-level perfect hashing implementation
(`3_perfect_hashing_fks.cpp`).

The C++ class `PerfectHashing` is embedded shallowly: machine `int` values
become `Int` (no arithmetic in the program can overflow `long long`, and the
single `%` is C truncating remainder, i.e. `Int.tmod`), `std::vector` becomes
`List` with explicit bounds-checked access (`vecGet?` / `vecSet?`), and any
out-of-bounds vector access — undefined behavior in C++ — makes the operation
return `none`.  The process-wide random number generator is modelled as an
explicit stream of `(a, b)` parameter draws, one per attempt of the
randomized secondary-table search; `randomizeHashFunction` guarantees
`1 ≤ a ≤ p - 1` and `0 ≤ b ≤ p - 1`, captured by `validParams`.
-/

namespace FKS

/-- The fixed large prime `PRIME = 2147483647` shared by both hash levels. -/
def PRIME : Int := 2147483647

/-- The universal hash function: `hashFunction(key, a, b, p) = ((long long)a * key + b) % p`. -/
def hashFunction (key a b p : Int) : Int := (a * key + b).tmod p

/-- The per-bucket secondary table: slot array, size, and hash parameters. -/
structure SecondaryTable where
  table : List Int
  size : Int
  a : Int
  b : Int
  p : Int
deriving DecidableEq

/-- The `SecondaryTable()` default constructor: empty slot array, all zero. -/
def initSecondary : SecondaryTable := ⟨[], 0, 0, 0, 0⟩

/-- The whole two-level structure: primary buckets, secondary tables, and the
level-1 hash parameters fixed at construction. -/
structure PerfectHashing where
  buckets : List (List Int)
  secondLevel : List SecondaryTable
  primarySize : Int
  a1 : Int
  b1 : Int
  p1 : Int
deriving DecidableEq

/-- Reading `v[i]`: `some` value when `0 ≤ i < length`, else `none`
(out-of-bounds vector access is undefined behavior). -/
def vecGet? {α : Type} (l : List α) (i : Int) : Option α :=
  if 0 ≤ i then l[i.toNat]? else none

/-- Writing `v[i] = x`: the updated vector when `0 ≤ i < length`, else `none`. -/
def vecSet? {α : Type} (l : List α) (i : Int) (v : α) : Option (List α) :=
  if 0 ≤ i ∧ i.toNat < l.length then some (l.set i.toNat v) else none

/-- The `PerfectHashing(n)` constructor, with the random level-1 parameters
`a1`, `b1` made explicit (`p1` is always set to `PRIME`). -/
def constructTable (n a1 b1 : Int) : PerfectHashing :=
  { buckets := List.replicate n.toNat []
    secondLevel := List.replicate n.toNat initSecondary
    primarySize := n
    a1 := a1
    b1 := b1
    p1 := PRIME }

/-- What `randomizeHashFunction` guarantees about its output:
`a = 1 + rand() % (PRIME - 1)` and `b = rand() % PRIME`. -/
def validParams (a b : Int) : Prop :=
  1 ≤ a ∧ a ≤ PRIME - 1 ∧ 0 ≤ b ∧ b ≤ PRIME - 1

instance (a b : Int) : Decidable (validParams a b) := by
  unfold validParams; infer_instance

/-- A stream of random parameter draws, all in the range produced by
`randomizeHashFunction`. -/
def validDraws (draws : Nat → Int × Int) : Prop :=
  ∀ i, validParams (draws i).1 (draws i).2

/-- The loop of `isCollisionFree`: `hashed` is the set of slots seen so far. -/
def isCollisionFreeAux (a b p tableSize : Int) : List Int → List Int → Bool
  | [], _ => true
  | key :: rest, hashed =>
    let h := (hashFunction key a b p).tmod tableSize
    if h ∈ hashed then false
    else isCollisionFreeAux a b p tableSize rest (h :: hashed)

/-- The check `isCollisionFree(keys, a, b, p, tableSize)`. -/
def isCollisionFree (keys : List Int) (a b p tableSize : Int) : Bool :=
  isCollisionFreeAux a b p tableSize keys []

/-- The secondary slot of `key` under parameters `(a, b)` and table size
`sz`: `hashFunction(key, a, b, PRIME) % sz`. -/
def slotIn (a b sz key : Int) : Int := (hashFunction key a b PRIME).tmod sz

/-- The key-placement loop of `buildSecondaryTable`:
`table[hashFunction(key, a, b, PRIME) % secondarySize] = key` for each key. -/
def placeKeys (a b sz : Int) : List Int → List Int → Option (List Int)
  | [], t => some t
  | key :: rest, t =>
    match vecSet? t (slotIn a b sz key) key with
    | some t1 => placeKeys a b sz rest t1
    | none => none

/-- The `while (attempts < maxAttempts)` loop of `buildSecondaryTable`:
`attempt` is the index into the draw stream, `fuel` the remaining attempts.
Each iteration writes `p := PRIME` into the bucket's table (the reference
out-parameter of `randomizeHashFunction`), even when the attempt fails. -/
def attemptLoop (keys : List Int) (secondarySize : Int) (draws : Nat → Int × Int) :
    Nat → Nat → SecondaryTable → Option (SecondaryTable × Bool)
  | _, 0, st => some (st, false)
  | attempt, fuel + 1, st =>
    let a := (draws attempt).1
    let b := (draws attempt).2
    let st1 : SecondaryTable := { st with p := PRIME }
    if isCollisionFree keys a b PRIME secondarySize then
      match placeKeys a b secondarySize keys (List.replicate secondarySize.toNat (-1)) with
      | some t => some ({ st1 with table := t, size := secondarySize, a := a, b := b }, true)
      | none => none
    else attemptLoop keys secondarySize draws (attempt + 1) fuel st1

/-- The rebuild `buildSecondaryTable(bucketIdx)`, returning the updated structure and the
boolean result (`none` on out-of-bounds access). -/
def buildSecondaryTable (ph : PerfectHashing) (bucketIdx : Int)
    (draws : Nat → Int × Int) : Option (PerfectHashing × Bool) :=
  (vecGet? ph.buckets bucketIdx).bind fun keys =>
  (vecGet? ph.secondLevel bucketIdx).bind fun st =>
  if keys.length = 0 then
    (vecSet? ph.secondLevel bucketIdx { st with size := 0 }).bind fun sl =>
      some ({ ph with secondLevel := sl }, true)
  else if keys.length = 1 then
    (vecSet? ph.secondLevel bucketIdx ⟨[keys.headI], 1, 1, 0, PRIME⟩).bind fun sl =>
      some ({ ph with secondLevel := sl }, true)
  else
    let k : Int := keys.length
    (attemptLoop keys (k * k) draws 0 100 st).bind fun str =>
    (vecSet? ph.secondLevel bucketIdx str.1).bind fun sl =>
      some ({ ph with secondLevel := sl }, str.2)

/-- The level-1 routing computed in both `insert` and `search`:
`hashFunction(key, a1, b1, p1) % primarySize`. -/
def route (ph : PerfectHashing) (key : Int) : Int :=
  (hashFunction key ph.a1 ph.b1 ph.p1).tmod ph.primarySize

/-- The operation `insert(key)`: append to the routed bucket, rebuild its secondary table. -/
def insert (ph : PerfectHashing) (key : Int) (draws : Nat → Int × Int) :
    Option (PerfectHashing × Bool) :=
  let bucketIdx := route ph key
  (vecGet? ph.buckets bucketIdx).bind fun bucket =>
  (vecSet? ph.buckets bucketIdx (bucket ++ [key])).bind fun bs =>
    buildSecondaryTable { ph with buckets := bs } bucketIdx draws

/-- The operation `search(key)`: route to the bucket, probe its secondary table. -/
def search (ph : PerfectHashing) (key : Int) : Option Bool :=
  (vecGet? ph.secondLevel (route ph key)).bind fun secTable =>
  if secTable.size = 0 then some false
  else
    (vecGet? secTable.table
        ((hashFunction key secTable.a secTable.b secTable.p).tmod secTable.size)).bind fun v =>
      some (decide (v = key))

/-- The states reachable by a constructor call followed by a sequence of
`insert` calls, together with the trace of `(key, returned boolean)` pairs.
Random draws are arbitrary but within `randomizeHashFunction`'s ranges. -/
inductive ReachableWith : PerfectHashing → List (Int × Bool) → Prop where
  | construct (n a1 b1 : Int) (hn : 1 ≤ n) (hv : validParams a1 b1) :
      ReachableWith (constructTable n a1 b1) []
  | step (ph ph' : PerfectHashing) (trace : List (Int × Bool)) (key : Int)
      (draws : Nat → Int × Int) (r : Bool) (hv : validDraws draws)
      (hre : ReachableWith ph trace)
      (hstep : insert ph key draws = some (ph', r)) :
      ReachableWith ph' (trace ++ [(key, r)])

/-- The slot probed by `search` in a given secondary table. -/
def slotOf (st : SecondaryTable) (key : Int) : Int :=
  (hashFunction key st.a st.b st.p).tmod st.size

/-- A secondary table correctly built over the key list `built`: parameters
in range, slot array of length `size`, every built key stored at its slot,
and every slot holding either the empty marker `-1` or a built key. -/
def TableOK (st : SecondaryTable) (built : List Int) : Prop :=
  st.p = PRIME ∧ 1 ≤ st.a ∧ 0 ≤ st.b ∧ 1 ≤ st.size ∧
  (st.table.length : Int) = st.size ∧
  (∀ key ∈ built, vecGet? st.table (slotOf st key) = some key) ∧
  (∀ v ∈ st.table, v = -1 ∨ v ∈ built)

/-- Invariant of bucket `i`: every key in it routes to `i` and was passed to
some `insert` call; the secondary table is either untouched (bucket never
inserted into) or correctly built over some prefix `built` of the key list,
and `built` contains every successfully inserted key routed to `i`. -/
def BucketInv (ph : PerfectHashing) (trace : List (Int × Bool)) (i : Nat) : Prop :=
  ∀ keys st, ph.buckets[i]? = some keys → ph.secondLevel[i]? = some st →
    (∀ key ∈ keys, route ph key = (i : Int)) ∧
    (∀ key ∈ keys, ∃ r, (key, r) ∈ trace) ∧
    ((keys = [] ∧ st = initSecondary) ∨
     (∃ built rest, built ≠ [] ∧ keys = built ++ rest ∧ TableOK st built ∧
        ∀ key, (key, true) ∈ trace → route ph key = (i : Int) → key ∈ built))

/-- Global invariant of every reachable state. -/
def Inv (ph : PerfectHashing) (trace : List (Int × Bool)) : Prop :=
  ph.p1 = PRIME ∧ 1 ≤ ph.a1 ∧ 0 ≤ ph.b1 ∧ 1 ≤ ph.primarySize ∧
  (ph.buckets.length : Int) = ph.primarySize ∧
  (ph.secondLevel.length : Int) = ph.primarySize ∧
  (∀ key r, (key, r) ∈ trace → ∃ l, vecGet? ph.buckets (route ph key) = some l ∧ key ∈ l) ∧
  (∀ i : Nat, i < ph.buckets.length → BucketInv ph trace i)

/-! ### Basic facts about bounds-checked vector access -/

theorem vecGet?_nonneg {α : Type} {l : List α} {i : Int} {x : α}
    (h : vecGet? l i = some x) : 0 ≤ i := by
  by_contra hneg
  simp [vecGet?, hneg] at h

theorem vecGet?_eq_getElem? {α : Type} {l : List α} {i : Int} (h : 0 ≤ i) :
    vecGet? l i = l[i.toNat]? := by
  simp [vecGet?, h]

theorem vecGet?_lt_length {α : Type} {l : List α} {i : Int} {x : α}
    (h : vecGet? l i = some x) : i.toNat < l.length := by
  rw [vecGet?_eq_getElem? (vecGet?_nonneg h)] at h
  exact (List.getElem?_eq_some_iff.mp h).1

theorem vecSet?_of_lt {α : Type} {l : List α} {i : Int} (h0 : 0 ≤ i)
    (hl : i.toNat < l.length) (v : α) :
    vecSet? l i v = some (l.set i.toNat v) := by
  simp [vecSet?, h0, hl]

theorem vecSet?_eq_some {α : Type} {l l' : List α} {i : Int} {v : α}
    (h : vecSet? l i v = some l') :
    0 ≤ i ∧ i.toNat < l.length ∧ l' = l.set i.toNat v := by
  by_cases hb : 0 ≤ i ∧ i.toNat < l.length
  · refine ⟨hb.1, hb.2, ?_⟩
    rw [vecSet?_of_lt hb.1 hb.2] at h
    exact (Option.some_inj.mp h).symm
  · simp [vecSet?, hb] at h

theorem vecGet?_set_self {α : Type} {l : List α} {i : Int} {v : α} (h0 : 0 ≤ i)
    (hl : i.toNat < l.length) :
    vecGet? (l.set i.toNat v) i = some v := by
  rw [vecGet?_eq_getElem? h0]
  simp [hl]

theorem vecGet?_set_ne {α : Type} {l : List α} {i j : Int} {v : α} (h0 : 0 ≤ i)
    (hne : j ≠ i) :
    vecGet? (l.set i.toNat v) j = vecGet? l j := by
  by_cases hj : 0 ≤ j
  · rw [vecGet?_eq_getElem? hj, vecGet?_eq_getElem? hj]
    have : i.toNat ≠ j.toNat := by omega
    exact List.getElem?_set_ne this
  · simp [vecGet?, hj]

theorem vecGet?_of_mem_getElem? {α : Type} {l : List α} {j : Nat} {x : α}
    (h : l[j]? = some x) : vecGet? l (j : Int) = some x := by
  rw [vecGet?_eq_getElem? (Int.ofNat_nonneg j)]
  simpa using h

/-! ### Bounds of the slot computation -/

theorem tmod_bounds {x m : Int} (hx : 0 ≤ x) (hm : 0 < m) :
    0 ≤ x.tmod m ∧ x.tmod m < m :=
  ⟨Int.tmod_nonneg m hx, Int.tmod_lt_of_pos x hm⟩

theorem hashFunction_nonneg {key a b p : Int} (hk : 0 ≤ key) (ha : 0 ≤ a)
    (hb : 0 ≤ b) : 0 ≤ hashFunction key a b p :=
  Int.tmod_nonneg p (add_nonneg (mul_nonneg ha hk) hb)

/-! ### `isCollisionFree` returns true exactly on collision-free functions -/

theorem isCollisionFreeAux_nodup {a b p ts : Int} :
    ∀ (keys hashed : List Int), isCollisionFreeAux a b p ts keys hashed = true →
      (keys.map fun key => (hashFunction key a b p).tmod ts).Nodup ∧
      ∀ h ∈ hashed, h ∉ keys.map fun key => (hashFunction key a b p).tmod ts := by
  intro keys
  induction keys with
  | nil => intro hashed _; simp
  | cons key rest ih =>
    intro hashed hcf
    rw [isCollisionFreeAux] at hcf
    by_cases hmem : (hashFunction key a b p).tmod ts ∈ hashed
    · simp [hmem] at hcf
    · simp only [hmem, if_false] at hcf
      obtain ⟨hnd, hnotin⟩ := ih _ hcf
      have hhead := hnotin _ (List.mem_cons_self _ _)
      constructor
      · rw [List.map_cons, List.nodup_cons]
        exact ⟨hhead, hnd⟩
      · intro h hh
        simp only [List.map_cons, List.mem_cons]
        rintro (rfl | hc)
        · exact hmem hh
        · exact hnotin h (List.mem_cons_of_mem _ hh) hc

theorem isCollisionFree_nodup {keys : List Int} {a b p ts : Int}
    (h : isCollisionFree keys a b p ts = true) :
    (keys.map fun key => (hashFunction key a b p).tmod ts).Nodup :=
  (isCollisionFreeAux_nodup keys [] h).1

theorem isCollisionFree_of_not_nodup {keys : List Int} {a b p ts : Int}
    (h : ¬ (keys.map fun key => (hashFunction key a b p).tmod ts).Nodup) :
    isCollisionFree keys a b p ts = false := by
  cases hcf : isCollisionFree keys a b p ts
  · rfl
  · exact absurd (isCollisionFree_nodup hcf) h

/-! ### The key-placement loop -/

theorem placeKeys_some_spec {a b sz : Int} :
    ∀ (keys t0 t : List Int), placeKeys a b sz keys t0 = some t →
      t.length = t0.length ∧
      (∀ key ∈ keys, 0 ≤ slotIn a b sz key ∧ (slotIn a b sz key).toNat < t0.length) ∧
      (∀ j : Nat, (∀ key ∈ keys, (slotIn a b sz key).toNat ≠ j) → t[j]? = t0[j]?) ∧
      ((keys.map (slotIn a b sz)).Nodup →
        ∀ key ∈ keys, vecGet? t (slotIn a b sz key) = some key) := by
  intro keys
  induction keys with
  | nil =>
    intro t0 t hp
    rw [placeKeys] at hp
    obtain rfl : t0 = t := Option.some_inj.mp hp
    exact ⟨rfl, by simp, fun j _ => rfl, by simp⟩
  | cons key rest ih =>
    intro t0 t hp
    rw [placeKeys] at hp
    cases hset : vecSet? t0 (slotIn a b sz key) key with
    | none => rw [hset] at hp; exact absurd hp (by simp)
    | some t1 =>
      rw [hset] at hp
      obtain ⟨h0, hlt, rfl⟩ := vecSet?_eq_some hset
      obtain ⟨hlen, hbnds, hframe, hplace⟩ := ih _ _ hp
      have hlen1 : (t0.set (slotIn a b sz key).toNat key).length = t0.length :=
        List.length_set t0 _ key
      refine ⟨hlen.trans hlen1, ?_, ?_, ?_⟩
      · intro key' hk'
        rcases List.mem_cons.mp hk' with rfl | hk'
        · exact ⟨h0, hlt⟩
        · have := hbnds _ hk'; rwa [hlen1] at this
      · intro j hj
        have hj1 : ∀ key' ∈ rest, (slotIn a b sz key').toNat ≠ j :=
          fun key' hk' => hj key' (List.mem_cons_of_mem _ hk')
        rw [hframe j hj1]
        exact List.getElem?_set_ne (hj key (List.mem_cons_self _ _))
      · intro hnd key' hk'
        have hcons := List.nodup_cons.mp (by rwa [List.map_cons] at hnd)
        have hnotin : slotIn a b sz key ∉ rest.map (slotIn a b sz) := hcons.1
        have hnd' : (rest.map (slotIn a b sz)).Nodup := hcons.2
        rcases List.mem_cons.mp hk' with rfl | hk'
        · -- the head key: untouched by the placements of `rest`
          have hji : ∀ key'' ∈ rest, (slotIn a b sz key'').toNat ≠ (slotIn a b sz key').toNat := by
            intro key'' hk'' hc
            apply hnotin
            have h0'' : 0 ≤ slotIn a b sz key'' := (hbnds _ hk'').1
            have heq : slotIn a b sz key'' = slotIn a b sz key' := by omega
            rw [← heq]
            exact List.mem_map_of_mem _ hk''
          rw [vecGet?_eq_getElem? h0, hframe _ hji]
          simp [hlt]
        · exact hplace hnd' key' hk'

theorem placeKeys_mem {a b sz : Int} {keys t : List Int}
    (hp : placeKeys a b sz keys (List.replicate sz.toNat (-1)) = some t)
    (hnd : (keys.map (slotIn a b sz)).Nodup) :
    ∀ v ∈ t, v = -1 ∨ v ∈ keys := by
  obtain ⟨hlen, hbnds, hframe, hplace⟩ := placeKeys_some_spec keys _ t hp
  intro v hv
  obtain ⟨j, hj⟩ := List.mem_iff_getElem?.mp hv
  by_cases hex : ∃ key ∈ keys, (slotIn a b sz key).toNat = j
  · obtain ⟨key, hk, hkj⟩ := hex
    right
    have := hplace hnd key hk
    rw [vecGet?_eq_getElem? (hbnds key hk).1, hkj, hj] at this
    rw [Option.some_inj.mp this]
    exact hk
  · left
    push_neg at hex
    rw [hframe j hex] at hj
    have hjlt : j < sz.toNat := by
      have := List.getElem?_eq_some_iff.mp hj
      simpa using this.1
    rw [List.getElem?_replicate_of_lt hjlt] at hj
    exact (Option.some_inj.mp hj).symm

/-! ### The randomized attempt loop -/

theorem attemptLoop_false {keys : List Int} {sz : Int} {draws : Nat → Int × Int} :
    ∀ (fuel attempt : Nat) (st st' : SecondaryTable),
      attemptLoop keys sz draws attempt fuel st = some (st', false) →
      st' = st ∨ st' = { st with p := PRIME } := by
  intro fuel
  induction fuel with
  | zero =>
    intro attempt st st' h
    rw [attemptLoop] at h
    exact Or.inl (congrArg Prod.fst (Option.some_inj.mp h)).symm
  | succ fuel ih =>
    intro attempt st st' h
    rw [attemptLoop] at h
    by_cases hcf : isCollisionFree keys (draws attempt).1 (draws attempt).2 PRIME sz = true
    · rw [if_pos hcf] at h
      cases hp : placeKeys (draws attempt).1 (draws attempt).2 sz keys
          (List.replicate sz.toNat (-1)) with
      | none => rw [hp] at h; exact absurd h (by simp)
      | some t => rw [hp] at h; exact absurd (congrArg Prod.snd (Option.some_inj.mp h)) (by simp)
    · rw [if_neg hcf] at h
      rcases ih _ _ _ h with h' | h'
      · exact Or.inr h'
      · exact Or.inr h'

theorem attemptLoop_true {keys : List Int} {sz : Int} {draws : Nat → Int × Int} :
    ∀ (fuel attempt : Nat) (st st' : SecondaryTable),
      attemptLoop keys sz draws attempt fuel st = some (st', true) →
      ∃ (i : Nat) (t : List Int), attempt ≤ i ∧ i < attempt + fuel ∧
        isCollisionFree keys (draws i).1 (draws i).2 PRIME sz = true ∧
        placeKeys (draws i).1 (draws i).2 sz keys (List.replicate sz.toNat (-1)) = some t ∧
        st' = { table := t, size := sz, a := (draws i).1, b := (draws i).2, p := PRIME } := by
  intro fuel
  induction fuel with
  | zero =>
    intro attempt st st' h
    rw [attemptLoop] at h
    exact absurd (congrArg Prod.snd (Option.some_inj.mp h)) (by simp)
  | succ fuel ih =>
    intro attempt st st' h
    rw [attemptLoop] at h
    by_cases hcf : isCollisionFree keys (draws attempt).1 (draws attempt).2 PRIME sz = true
    · rw [if_pos hcf] at h
      cases hp : placeKeys (draws attempt).1 (draws attempt).2 sz keys
          (List.replicate sz.toNat (-1)) with
      | none => rw [hp] at h; exact absurd h (by simp)
      | some t =>
        rw [hp] at h
        refine ⟨attempt, t, Nat.le_refl _, by omega, hcf, hp, ?_⟩
        exact (congrArg Prod.fst (Option.some_inj.mp h)).symm
    · rw [if_neg hcf] at h
      obtain ⟨i, t, hi1, hi2, hrest⟩ := ih _ _ _ h
      exact ⟨i, t, by omega, by omega, hrest⟩

theorem attemptLoop_agree {keys : List Int} {sz : Int} :
    ∀ (fuel attempt : Nat) (st : SecondaryTable) (draws draws' : Nat → Int × Int),
      (∀ i, attempt ≤ i → i < attempt + fuel → draws i = draws' i) →
      attemptLoop keys sz draws attempt fuel st =
        attemptLoop keys sz draws' attempt fuel st := by
  intro fuel
  induction fuel with
  | zero => intro attempt st draws draws' _; rw [attemptLoop, attemptLoop]
  | succ fuel ih =>
    intro attempt st draws draws' hagree
    rw [attemptLoop, attemptLoop]
    have h0 : draws attempt = draws' attempt := hagree attempt (Nat.le_refl _) (by omega)
    rw [h0]
    by_cases hcf : isCollisionFree keys (draws' attempt).1 (draws' attempt).2 PRIME sz = true
    · rw [if_pos hcf, if_pos hcf]
    · rw [if_neg hcf, if_neg hcf]
      exact ih _ _ _ _ fun i hi1 hi2 => hagree i (by omega) (by omega)

theorem attemptLoop_all_fail {keys : List Int} {sz : Int} {draws : Nat → Int × Int} :
    ∀ (fuel attempt : Nat) (st : SecondaryTable), 1 ≤ fuel →
      (∀ i, attempt ≤ i → i < attempt + fuel →
        isCollisionFree keys (draws i).1 (draws i).2 PRIME sz = false) →
      attemptLoop keys sz draws attempt fuel st = some ({ st with p := PRIME }, false) := by
  intro fuel
  induction fuel with
  | zero => intro attempt st h; omega
  | succ fuel ih =>
    intro attempt st _ hfail
    rw [attemptLoop]
    have h0 : isCollisionFree keys (draws attempt).1 (draws attempt).2 PRIME sz = false :=
      hfail attempt (Nat.le_refl _) (by omega)
    rw [if_neg (by simp [h0])]
    cases fuel with
    | zero => rw [attemptLoop]
    | succ fuel' =>
      rw [ih (attempt + 1) _ (by omega) fun i hi1 hi2 => hfail i (by omega) (by omega)]

/-! ### Unfolding `buildSecondaryTable` at known bucket contents -/

theorem build_nil {ph : PerfectHashing} {bucketIdx : Int} {st : SecondaryTable}
    {draws : Nat → Int × Int}
    (hk : vecGet? ph.buckets bucketIdx = some [])
    (hs : vecGet? ph.secondLevel bucketIdx = some st) :
    buildSecondaryTable ph bucketIdx draws =
      some ({ ph with secondLevel :=
        ph.secondLevel.set bucketIdx.toNat { st with size := 0 } }, true) := by
  simp only [buildSecondaryTable, hk, hs, Option.some_bind, List.length_nil, if_pos]
  rw [vecSet?_of_lt (vecGet?_nonneg hs) (vecGet?_lt_length hs), Option.some_bind]

theorem build_single {ph : PerfectHashing} {bucketIdx : Int} {key0 : Int}
    {st : SecondaryTable} {draws : Nat → Int × Int}
    (hk : vecGet? ph.buckets bucketIdx = some [key0])
    (hs : vecGet? ph.secondLevel bucketIdx = some st) :
    buildSecondaryTable ph bucketIdx draws =
      some ({ ph with secondLevel :=
        ph.secondLevel.set bucketIdx.toNat ⟨[key0], 1, 1, 0, PRIME⟩ }, true) := by
  simp only [buildSecondaryTable, hk, hs, Option.some_bind, List.length_cons,
    List.length_nil, List.headI]
  rw [if_neg (by omega)]
  simp only [if_true]
  rw [vecSet?_of_lt (vecGet?_nonneg hs) (vecGet?_lt_length hs), Option.some_bind]

theorem build_many {ph : PerfectHashing} {bucketIdx : Int} {keys : List Int}
    {st : SecondaryTable} {draws : Nat → Int × Int}
    (hk : vecGet? ph.buckets bucketIdx = some keys) (h2 : 2 ≤ keys.length)
    (hs : vecGet? ph.secondLevel bucketIdx = some st) :
    buildSecondaryTable ph bucketIdx draws =
      (attemptLoop keys ((keys.length : Int) * keys.length) draws 0 100 st).bind fun str =>
        some ({ ph with secondLevel := ph.secondLevel.set bucketIdx.toNat str.1 }, str.2) := by
  simp only [buildSecondaryTable, hk, hs, Option.some_bind]
  rw [if_neg (by omega), if_neg (by omega)]
  cases hal : attemptLoop keys ((keys.length : Int) * keys.length) draws 0 100 st with
  | none => rfl
  | some pr =>
    simp only [Option.some_bind]
    rw [vecSet?_of_lt (vecGet?_nonneg hs) (vecGet?_lt_length hs), Option.some_bind]

theorem insert_eq {ph : PerfectHashing} {key : Int} {bucket : List Int}
    {draws : Nat → Int × Int}
    (hk : vecGet? ph.buckets (route ph key) = some bucket) :
    insert ph key draws =
      buildSecondaryTable
        { ph with buckets := ph.buckets.set (route ph key).toNat (bucket ++ [key]) }
        (route ph key) draws := by
  simp only [insert, hk, Option.some_bind]
  rw [vecSet?_of_lt (vecGet?_nonneg hk) (vecGet?_lt_length hk), Option.some_bind]

/-! ### Facts about correctly built secondary tables -/

theorem search_of_tableOK {ph : PerfectHashing} {key : Int} {st : SecondaryTable}
    {built : List Int}
    (hs : vecGet? ph.secondLevel (route ph key) = some st)
    (ht : TableOK st built) (hk : key ∈ built) :
    search ph key = some true := by
  obtain ⟨hp, ha, hb, hsz, hlen, hslot, _⟩ := ht
  have hslotk := hslot key hk
  simp only [search, hs, Option.some_bind]
  rw [if_neg (by omega)]
  rw [show (hashFunction key st.a st.b st.p).tmod st.size = slotOf st key from rfl, hslotk]
  simp

theorem tableOK_single (key : Int) : TableOK ⟨[key], 1, 1, 0, PRIME⟩ [key] := by
  refine ⟨rfl, le_refl 1, le_refl 0, le_refl 1, rfl, ?_, ?_⟩
  · intro key' hk'
    have hkk : key' = key := by simpa using hk'
    subst hkk
    have hz : slotOf ⟨[key'], 1, 1, 0, PRIME⟩ key' = 0 := Int.tmod_one _
    rw [hz]
    simp [vecGet?]
  · intro v hv
    right
    simpa using hv

theorem tableOK_of_attempt_success {keys : List Int} {sz a b : Int} {t : List Int}
    (hval : validParams a b) (hsz : 1 ≤ sz)
    (hcf : isCollisionFree keys a b PRIME sz = true)
    (hpl : placeKeys a b sz keys (List.replicate sz.toNat (-1)) = some t) :
    TableOK ⟨t, sz, a, b, PRIME⟩ keys := by
  obtain ⟨hlen, hbnds, hframe, hplace⟩ := placeKeys_some_spec keys _ t hpl
  have hnd : (keys.map (slotIn a b sz)).Nodup := isCollisionFree_nodup hcf
  refine ⟨rfl, hval.1, hval.2.2.1, hsz, ?_, ?_, ?_⟩
  · rw [hlen, List.length_replicate, Int.toNat_of_nonneg (by omega)]
  · intro key hk
    have := hplace hnd key hk
    exact this
  · exact placeKeys_mem hpl hnd

theorem setp_eq {st : SecondaryTable} (h : st.p = PRIME) :
    { st with p := PRIME } = st := by
  cases st
  simp_all

/-! ### Invariant preservation -/

theorem inv_update {ph : PerfectHashing} {trace : List (Int × Bool)} {key : Int}
    {bucket : List Int} {st2 : SecondaryTable} {r : Bool}
    (hinv : Inv ph trace)
    (hkb : vecGet? ph.buckets (route ph key) = some bucket)
    (hnew : ∃ built rest, built ≠ [] ∧ bucket ++ [key] = built ++ rest ∧ TableOK st2 built ∧
      (∀ key', (key', true) ∈ trace → route ph key' = route ph key → key' ∈ built) ∧
      (r = true → key ∈ built)) :
    Inv { ph with
          buckets := ph.buckets.set (route ph key).toNat (bucket ++ [key]),
          secondLevel := ph.secondLevel.set (route ph key).toNat st2 }
        (trace ++ [(key, r)]) := by
  obtain ⟨hp1, ha1, hb1, hn, hlb, hls, htr, hbuck⟩ := hinv
  have h0 : 0 ≤ route ph key := vecGet?_nonneg hkb
  have hlt : (route ph key).toNat < ph.buckets.length := vecGet?_lt_length hkb
  have hlts : (route ph key).toNat < ph.secondLevel.length := by omega
  have hidx : (((route ph key).toNat : Nat) : Int) = route ph key := Int.toNat_of_nonneg h0
  refine ⟨hp1, ha1, hb1, hn, by simpa using hlb, by simpa using hls, ?_, ?_⟩
  · -- every recorded key is in its routed bucket
    intro key' r' hmem
    rcases List.mem_append.mp hmem with hold | hnew'
    · obtain ⟨l, hget, hl⟩ := htr key' r' hold
      by_cases hri : route ph key' = route ph key
      · refine ⟨bucket ++ [key], ?_, ?_⟩
        · show vecGet? (ph.buckets.set (route ph key).toNat (bucket ++ [key]))
            (route ph key') = _
          rw [hri, vecGet?_set_self h0 hlt]
        · rw [hri] at hget
          have hlb' : bucket = l := Option.some_inj.mp (hkb.symm.trans hget)
          exact List.mem_append_left _ (hlb' ▸ hl)
      · refine ⟨l, ?_, hl⟩
        show vecGet? (ph.buckets.set (route ph key).toNat (bucket ++ [key]))
          (route ph key') = _
        rw [vecGet?_set_ne h0 hri]
        exact hget
    · have hkr : key' = key ∧ r' = r := by simpa using hnew'
      rw [hkr.1]
      refine ⟨bucket ++ [key], ?_, by simp⟩
      show vecGet? (ph.buckets.set (route ph key).toNat (bucket ++ [key]))
        (route ph key) = _
      rw [vecGet?_set_self h0 hlt]
  · -- per-bucket invariant
    intro i hi keys st' hgk hgs
    by_cases hii : i = (route ph key).toNat
    · subst hii
      have hkeys : keys = bucket ++ [key] := by
        rw [List.getElem?_set_self hlt] at hgk
        exact (Option.some_inj.mp hgk).symm
      have hst2 : st' = st2 := by
        rw [List.getElem?_set_self hlts] at hgs
        exact (Option.some_inj.mp hgs).symm
      subst hkeys
      subst hst2
      have hgetb : ph.buckets[(route ph key).toNat]? = some bucket := by
        rw [← vecGet?_eq_getElem? h0]
        exact hkb
      obtain ⟨stold, hgets0⟩ :
          ∃ stold, ph.secondLevel[(route ph key).toNat]? = some stold :=
        ⟨_, List.getElem?_eq_getElem hlts⟩
      obtain ⟨hroute0, hins0, _⟩ := hbuck _ hlt bucket _ hgetb hgets0
      refine ⟨?_, ?_, ?_⟩
      · intro key'' hk''
        rcases List.mem_append.mp hk'' with hk'' | hk''
        · exact hroute0 key'' hk''
        · have hke : key'' = key := by simpa using hk''
          subst hke
          exact hidx.symm
      · intro key'' hk''
        rcases List.mem_append.mp hk'' with hk'' | hk''
        · obtain ⟨r', hr'⟩ := hins0 key'' hk''
          exact ⟨r', List.mem_append_left _ hr'⟩
        · have hke : key'' = key := by simpa using hk''
          subst hke
          exact ⟨r, List.mem_append_right _ (by simp)⟩
      · right
        obtain ⟨built, rest, hbne, hsplit, htok, hsucc, hkey⟩ := hnew
        refine ⟨built, rest, hbne, hsplit, htok, ?_⟩
        intro key'' hmem hr''
        rcases List.mem_append.mp hmem with hold | hnewm
        · exact hsucc key'' hold (hr''.trans hidx)
        · have hke : key'' = key ∧ true = r := by simpa using hnewm
          obtain ⟨rfl, hrr⟩ := hke
          exact hkey hrr.symm
    · -- untouched bucket
      have hgk0 : ph.buckets[i]? = some keys := by
        rw [List.getElem?_set_ne (fun hc => hii hc.symm)] at hgk
        exact hgk
      have hgs0 : ph.secondLevel[i]? = some st' := by
        rw [List.getElem?_set_ne (fun hc => hii hc.symm)] at hgs
        exact hgs
      have hi0 : i < ph.buckets.length := by simpa using hi
      obtain ⟨hroute0, hins0, hdisj0⟩ := hbuck i hi0 keys st' hgk0 hgs0
      refine ⟨fun key'' hk'' => hroute0 key'' hk'', ?_, ?_⟩
      · intro key'' hk''
        obtain ⟨r', hr'⟩ := hins0 key'' hk''
        exact ⟨r', List.mem_append_left _ hr'⟩
      · rcases hdisj0 with hempty | ⟨built, rest, hbne, hsplit, htok, hsucc⟩
        · exact Or.inl hempty
        · refine Or.inr ⟨built, rest, hbne, hsplit, htok, ?_⟩
          intro key'' hmem hr''
          rcases List.mem_append.mp hmem with hold | hnewm
          · exact hsucc key'' hold hr''
          · have hke : key'' = key ∧ true = r := by simpa using hnewm
            obtain ⟨rfl, _⟩ := hke
            exfalso
            apply hii
            have hr2 : route ph key'' = (i : Int) := hr''
            omega

theorem inv_step {ph ph' : PerfectHashing} {trace : List (Int × Bool)} {key : Int}
    {draws : Nat → Int × Int} {r : Bool}
    (hinv : Inv ph trace) (hv : validDraws draws)
    (hstep : insert ph key draws = some (ph', r)) :
    Inv ph' (trace ++ [(key, r)]) := by
  obtain ⟨hp1, ha1, hb1, hn, hlb, hls, htr, hbuck⟩ := hinv
  cases hkb : vecGet? ph.buckets (route ph key) with
  | none => rw [insert] at hstep; rw [hkb] at hstep; simp at hstep
  | some bucket =>
    rw [insert_eq hkb] at hstep
    have h0 : 0 ≤ route ph key := vecGet?_nonneg hkb
    have hlt : (route ph key).toNat < ph.buckets.length := vecGet?_lt_length hkb
    have hlts : (route ph key).toNat < ph.secondLevel.length := by omega
    have hidx : (((route ph key).toNat : Nat) : Int) = route ph key := Int.toNat_of_nonneg h0
    obtain ⟨st0, hgets⟩ : ∃ st0, vecGet? ph.secondLevel (route ph key) = some st0 := by
      rw [vecGet?_eq_getElem? h0]
      exact ⟨_, List.getElem?_eq_getElem hlts⟩
    have hkb1 : vecGet?
        ({ ph with buckets := ph.buckets.set (route ph key).toNat (bucket ++ [key]) } :
          PerfectHashing).buckets (route ph key) = some (bucket ++ [key]) :=
      vecGet?_set_self h0 hlt
    have hgs1 : vecGet?
        ({ ph with buckets := ph.buckets.set (route ph key).toNat (bucket ++ [key]) } :
          PerfectHashing).secondLevel (route ph key) = some st0 := hgets
    cases bucket with
    | nil =>
      rw [build_single hkb1 hgs1] at hstep
      have h' := Option.some_inj.mp hstep
      have hph : _ = ph' := congrArg Prod.fst h'
      have hr : true = r := congrArg Prod.snd h'
      subst hph
      subst hr
      refine inv_update ⟨hp1, ha1, hb1, hn, hlb, hls, htr, hbuck⟩ hkb
        ⟨[key], [], by simp, by simp, tableOK_single key, ?_, fun _ => by simp⟩
      intro key' htrue hri
      obtain ⟨l, hget, hl⟩ := htr key' true htrue
      rw [hri] at hget
      have hle : [] = l := Option.some_inj.mp (hkb.symm.trans hget)
      rw [← hle] at hl
      simp at hl
    | cons b0 brest =>
      have h2 : 2 ≤ ((b0 :: brest) ++ [key]).length := by simp
      rw [build_many hkb1 h2 hgs1] at hstep
      cases hal : attemptLoop ((b0 :: brest) ++ [key])
          (((((b0 :: brest) ++ [key]).length : Nat) : Int) * (((b0 :: brest) ++ [key]).length : Nat))
          draws 0 100 st0 with
      | none => rw [hal] at hstep; simp at hstep
      | some pr =>
        rw [hal] at hstep
        simp only [Option.some_bind] at hstep
        obtain ⟨st2, r2⟩ := pr
        have h' := Option.some_inj.mp hstep
        have hph : _ = ph' := congrArg Prod.fst h'
        have hr : r2 = r := congrArg Prod.snd h'
        subst hph
        subst hr
        cases r2 with
        | true =>
          obtain ⟨i, t, _, _, hcf, hpl, hst2⟩ := attemptLoop_true _ _ _ _ hal
          subst hst2
          refine inv_update ⟨hp1, ha1, hb1, hn, hlb, hls, htr, hbuck⟩ hkb
            ⟨(b0 :: brest) ++ [key], [], by simp, by simp, ?_, ?_, fun _ => by simp⟩
          · refine tableOK_of_attempt_success (hv i) ?_ hcf hpl
            have : (2 : Int) ≤ (((b0 :: brest) ++ [key]).length : Nat) := by
              exact_mod_cast h2
            nlinarith
          · intro key' htrue hri
            obtain ⟨l, hget, hl⟩ := htr key' true htrue
            rw [hri] at hget
            have hle : b0 :: brest = l := Option.some_inj.mp (hkb.symm.trans hget)
            rw [← hle] at hl
            exact List.mem_append_left _ hl
        | false =>
          have hgetb : ph.buckets[(route ph key).toNat]? = some (b0 :: brest) := by
            rw [← vecGet?_eq_getElem? h0]
            exact hkb
          have hgets0 : ph.secondLevel[(route ph key).toNat]? = some st0 := by
            rw [← vecGet?_eq_getElem? h0]
            exact hgets
          obtain ⟨_, _, hdisj⟩ := hbuck _ hlt _ _ hgetb hgets0
          rcases hdisj with ⟨hkeys0, _⟩ | ⟨built, rest, hbne, hsplit, htok, hsucc⟩
          · exact absurd hkeys0 (by simp)
          · have hst2 : st2 = st0 := by
              rcases attemptLoop_false _ _ _ _ hal with h | h
              · exact h
              · rw [h]
                exact setp_eq htok.1
            subst hst2
            refine inv_update ⟨hp1, ha1, hb1, hn, hlb, hls, htr, hbuck⟩ hkb
              ⟨built, rest ++ [key], hbne, ?_, htok, ?_, by simp⟩
            · rw [hsplit, List.append_assoc]
            · intro key' htrue hri
              exact hsucc key' htrue (hri.trans hidx.symm)

theorem inv_construct {n a1 b1 : Int} (hn : 1 ≤ n) (hv : validParams a1 b1) :
    Inv (constructTable n a1 b1) [] := by
  obtain ⟨ha, _, hb, _⟩ := hv
  refine ⟨rfl, ha, hb, hn, ?_, ?_, ?_, ?_⟩
  · simp [constructTable, Int.toNat_of_nonneg (by omega : (0 : Int) ≤ n)]
  · simp [constructTable, Int.toNat_of_nonneg (by omega : (0 : Int) ≤ n)]
  · intro key r hmem
    simp at hmem
  · intro i hi keys st hgk hgs
    have hi2 : i < n.toNat := by
      simpa only [constructTable, List.length_replicate] using hi
    have hik : keys = [] := by
      have hrep : (constructTable n a1 b1).buckets[i]? = some [] :=
        List.getElem?_replicate_of_lt hi2
      rw [hrep] at hgk
      exact (Option.some_inj.mp hgk).symm
    have hist : st = initSecondary := by
      have hrep : (constructTable n a1 b1).secondLevel[i]? = some initSecondary :=
        List.getElem?_replicate_of_lt hi2
      rw [hrep] at hgs
      exact (Option.some_inj.mp hgs).symm
    subst hik
    subst hist
    exact ⟨by simp, by simp, Or.inl ⟨rfl, rfl⟩⟩

theorem reachable_inv {ph : PerfectHashing} {trace : List (Int × Bool)}
    (h : ReachableWith ph trace) : Inv ph trace := by
  induction h with
  | construct n a1 b1 hn hv => exact inv_construct hn hv
  | step ph ph' trace key draws r hv hre hstep ih => exact inv_step ih hv hstep

/-! ### Search behaviour on states satisfying the invariant -/

theorem inv_search_true {ph : PerfectHashing} {trace : List (Int × Bool)} {key : Int}
    (hinv : Inv ph trace) (hins : (key, true) ∈ trace) :
    search ph key = some true := by
  obtain ⟨hp1, ha1, hb1, hn, hlb, hls, htr, hbuck⟩ := hinv
  obtain ⟨l, hget, hl⟩ := htr key true hins
  have h0 : 0 ≤ route ph key := vecGet?_nonneg hget
  have hlt : (route ph key).toNat < ph.buckets.length := vecGet?_lt_length hget
  have hlts : (route ph key).toNat < ph.secondLevel.length := by omega
  have hidx : (((route ph key).toNat : Nat) : Int) = route ph key := Int.toNat_of_nonneg h0
  obtain ⟨st0, hgets⟩ : ∃ st0, vecGet? ph.secondLevel (route ph key) = some st0 := by
    rw [vecGet?_eq_getElem? h0]
    exact ⟨_, List.getElem?_eq_getElem hlts⟩
  have hgetb : ph.buckets[(route ph key).toNat]? = some l := by
    rw [← vecGet?_eq_getElem? h0]
    exact hget
  have hgets0 : ph.secondLevel[(route ph key).toNat]? = some st0 := by
    rw [← vecGet?_eq_getElem? h0]
    exact hgets
  obtain ⟨_, _, hdisj⟩ := hbuck _ hlt _ _ hgetb hgets0
  rcases hdisj with ⟨hle, _⟩ | ⟨built, rest, _, _, htok, hsucc⟩
  · subst hle
    simp at hl
  · exact search_of_tableOK hgets htok (hsucc key hins hidx.symm)

theorem inv_search_false {ph : PerfectHashing} {trace : List (Int × Bool)} {key : Int}
    (hinv : Inv ph trace) (hk : 0 ≤ key) (hnever : ∀ r : Bool, (key, r) ∉ trace) :
    search ph key = some false := by
  obtain ⟨hp1, ha1, hb1, hn, hlb, hls, htr, hbuck⟩ := hinv
  have h0 : 0 ≤ route ph key :=
    Int.tmod_nonneg _ (hashFunction_nonneg hk (by omega) hb1)
  have hlt : (route ph key).toNat < ph.buckets.length := by
    have := Int.tmod_lt_of_pos (hashFunction key ph.a1 ph.b1 ph.p1) (by omega : 0 < ph.primarySize)
    have hr : route ph key < ph.primarySize := this
    omega
  have hlts : (route ph key).toNat < ph.secondLevel.length := by omega
  obtain ⟨st0, hgets⟩ : ∃ st0, vecGet? ph.secondLevel (route ph key) = some st0 := by
    rw [vecGet?_eq_getElem? h0]
    exact ⟨_, List.getElem?_eq_getElem hlts⟩
  by_cases hsz : st0.size = 0
  · simp only [search, hgets, Option.some_bind, hsz, if_pos]
  · obtain ⟨keys0, hgetk⟩ : ∃ keys0, vecGet? ph.buckets (route ph key) = some keys0 := by
      rw [vecGet?_eq_getElem? h0]
      exact ⟨_, List.getElem?_eq_getElem hlt⟩
    have hgetb : ph.buckets[(route ph key).toNat]? = some keys0 := by
      rw [← vecGet?_eq_getElem? h0]
      exact hgetk
    have hgets0 : ph.secondLevel[(route ph key).toNat]? = some st0 := by
      rw [← vecGet?_eq_getElem? h0]
      exact hgets
    obtain ⟨_, hins0, hdisj⟩ := hbuck _ hlt _ _ hgetb hgets0
    rcases hdisj with ⟨_, hste⟩ | ⟨built, rest, _, hsplit, htok, _⟩
    · rw [hste] at hsz
      simp [initSecondary] at hsz
    · obtain ⟨hpP, ha, hb, hs1, hlen, _, hmem⟩ := htok
      have hsl : 0 ≤ slotOf st0 key := by
        apply Int.tmod_nonneg
        apply hashFunction_nonneg hk (by omega) hb
      have hsl2 : slotOf st0 key < st0.size := Int.tmod_lt_of_pos _ (by omega)
      have hslt : (slotOf st0 key).toNat < st0.table.length := by omega
      obtain ⟨v, hv⟩ : ∃ v, vecGet? st0.table (slotOf st0 key) = some v := by
        rw [vecGet?_eq_getElem? hsl]
        exact ⟨_, List.getElem?_eq_getElem hslt⟩
      have hvmem : v ∈ st0.table := by
        rw [vecGet?_eq_getElem? hsl] at hv
        exact List.getElem?_mem hv
      have hvne : v ≠ key := by
        rcases hmem v hvmem with hv1 | hv2
        · omega
        · intro hc
          subst hc
          have : v ∈ keys0 := by
            rw [hsplit]
            exact List.mem_append_left _ hv2
          obtain ⟨r', hr'⟩ := hins0 v this
          exact hnever r' hr'
      simp only [search, hgets, Option.some_bind, if_neg hsz]
      rw [show (hashFunction key st0.a st0.b st0.p).tmod st0.size = slotOf st0 key from rfl, hv]
      simp [hvne]

theorem inv_search_total {ph : PerfectHashing} {trace : List (Int × Bool)} {key : Int}
    (hinv : Inv ph trace) (hk : 0 ≤ key) : (search ph key).isSome = true := by
  obtain ⟨hp1, ha1, hb1, hn, hlb, hls, htr, hbuck⟩ := hinv
  have h0 : 0 ≤ route ph key :=
    Int.tmod_nonneg _ (hashFunction_nonneg hk (by omega) hb1)
  have hlt : (route ph key).toNat < ph.buckets.length := by
    have := Int.tmod_lt_of_pos (hashFunction key ph.a1 ph.b1 ph.p1) (by omega : 0 < ph.primarySize)
    have hr : route ph key < ph.primarySize := this
    omega
  have hlts : (route ph key).toNat < ph.secondLevel.length := by omega
  obtain ⟨st0, hgets⟩ : ∃ st0, vecGet? ph.secondLevel (route ph key) = some st0 := by
    rw [vecGet?_eq_getElem? h0]
    exact ⟨_, List.getElem?_eq_getElem hlts⟩
  by_cases hsz : st0.size = 0
  · simp only [search, hgets, Option.some_bind, hsz, if_pos]
    rfl
  · obtain ⟨keys0, hgetk⟩ : ∃ keys0, vecGet? ph.buckets (route ph key) = some keys0 := by
      rw [vecGet?_eq_getElem? h0]
      exact ⟨_, List.getElem?_eq_getElem hlt⟩
    have hgetb : ph.buckets[(route ph key).toNat]? = some keys0 := by
      rw [← vecGet?_eq_getElem? h0]
      exact hgetk
    have hgets0 : ph.secondLevel[(route ph key).toNat]? = some st0 := by
      rw [← vecGet?_eq_getElem? h0]
      exact hgets
    obtain ⟨_, _, hdisj⟩ := hbuck _ hlt _ _ hgetb hgets0
    rcases hdisj with ⟨_, hste⟩ | ⟨built, rest, _, _, htok, _⟩
    · rw [hste] at hsz
      simp [initSecondary] at hsz
    · obtain ⟨hpP, ha, hb, hs1, hlen, _, _⟩ := htok
      have hsl : 0 ≤ slotOf st0 key := by
        apply Int.tmod_nonneg
        apply hashFunction_nonneg hk (by omega) hb
      have hsl2 : slotOf st0 key < st0.size := Int.tmod_lt_of_pos _ (by omega)
      have hslt : (slotOf st0 key).toNat < st0.table.length := by omega
      obtain ⟨v, hv⟩ : ∃ v, vecGet? st0.table (slotOf st0 key) = some v := by
        rw [vecGet?_eq_getElem? hsl]
        exact ⟨_, List.getElem?_eq_getElem hslt⟩
      simp only [search, hgets, Option.some_bind, if_neg hsz]
      rw [show (hashFunction key st0.a st0.b st0.p).tmod st0.size = slotOf st0 key from rfl, hv]
      rfl

/-! ### Characterization of every successful `insert` call -/

theorem insert_cases {ph ph' : PerfectHashing} {key : Int} {draws : Nat → Int × Int} {r : Bool}
    (hstep : insert ph key draws = some (ph', r)) :
    ∃ bucket st0,
      vecGet? ph.buckets (route ph key) = some bucket ∧
      vecGet? ph.secondLevel (route ph key) = some st0 ∧
      ∃ st2, ph' = { ph with
              buckets := ph.buckets.set (route ph key).toNat (bucket ++ [key]),
              secondLevel := ph.secondLevel.set (route ph key).toNat st2 } ∧
        ((bucket = [] ∧ r = true ∧ st2 = ⟨[key], 1, 1, 0, PRIME⟩) ∨
         (bucket ≠ [] ∧
           attemptLoop (bucket ++ [key])
             (((bucket ++ [key]).length : Int) * ((bucket ++ [key]).length : Int))
             draws 0 100 st0 = some (st2, r))) := by
  cases hkb : vecGet? ph.buckets (route ph key) with
  | none => rw [insert] at hstep; rw [hkb] at hstep; simp at hstep
  | some bucket =>
    rw [insert_eq hkb] at hstep
    have h0 : 0 ≤ route ph key := vecGet?_nonneg hkb
    have hlt : (route ph key).toNat < ph.buckets.length := vecGet?_lt_length hkb
    refine ⟨bucket, ?_⟩
    have hkb1 : vecGet?
        ({ ph with buckets := ph.buckets.set (route ph key).toNat (bucket ++ [key]) } :
          PerfectHashing).buckets (route ph key) = some (bucket ++ [key]) :=
      vecGet?_set_self h0 hlt
    cases hgets : vecGet? ph.secondLevel (route ph key) with
    | none =>
      exfalso
      rw [buildSecondaryTable] at hstep
      rw [hkb1] at hstep
      have hval : vecGet?
          ({ ph with buckets := ph.buckets.set (route ph key).toNat (bucket ++ [key]) } :
            PerfectHashing).secondLevel (route ph key) = none := hgets
      rw [hval] at hstep
      simp at hstep
    | some st0 =>
      refine ⟨st0, rfl, rfl, ?_⟩
      have hgs1 : vecGet?
          ({ ph with buckets := ph.buckets.set (route ph key).toNat (bucket ++ [key]) } :
            PerfectHashing).secondLevel (route ph key) = some st0 := hgets
      cases bucket with
      | nil =>
        rw [build_single hkb1 hgs1] at hstep
        have h' := Option.some_inj.mp hstep
        have hph : _ = ph' := congrArg Prod.fst h'
        have hr : true = r := congrArg Prod.snd h'
        exact ⟨⟨[key], 1, 1, 0, PRIME⟩, hph.symm, Or.inl ⟨rfl, hr.symm, rfl⟩⟩
      | cons b0 brest =>
        have h2 : 2 ≤ ((b0 :: brest) ++ [key]).length := by simp
        rw [build_many hkb1 h2 hgs1] at hstep
        cases hal : attemptLoop ((b0 :: brest) ++ [key])
            ((((b0 :: brest) ++ [key]).length : Int) * (((b0 :: brest) ++ [key]).length : Int))
            draws 0 100 st0 with
        | none => rw [hal] at hstep; simp at hstep
        | some pr =>
          rw [hal] at hstep
          simp only [Option.some_bind] at hstep
          obtain ⟨st2, r2⟩ := pr
          have h' := Option.some_inj.mp hstep
          have hph : _ = ph' := congrArg Prod.fst h'
          have hr : r2 = r := congrArg Prod.snd h'
          exact ⟨st2, hph.symm, Or.inr ⟨by simp, hr ▸ rfl⟩⟩

theorem insert_false_preserves {ph ph' : PerfectHashing} {key : Int}
    {draws : Nat → Int × Int}
    (hstep : insert ph key draws = some (ph', false)) :
    ∀ st st', vecGet? ph.secondLevel (route ph key) = some st →
      vecGet? ph'.secondLevel (route ph key) = some st' →
      st' = st ∨ st' = { st with p := PRIME } := by
  obtain ⟨bucket, st0, hkb, hgs, st2, rfl, hcase⟩ := insert_cases hstep
  intro st st' hst hst'
  have hst0 : st = st0 := Option.some_inj.mp (hst.symm.trans hgs)
  have h0 : 0 ≤ route ph key := vecGet?_nonneg hkb
  have hlts : (route ph key).toNat < ph.secondLevel.length := vecGet?_lt_length hgs
  have hset : vecGet? (ph.secondLevel.set (route ph key).toNat st2) (route ph key) =
      some st2 := vecGet?_set_self h0 hlts
  have h2 : vecGet? (ph.secondLevel.set (route ph key).toNat st2) (route ph key) =
      some st' := hst'
  have hst2' : st' = st2 := (Option.some_inj.mp (hset.symm.trans h2)).symm
  subst hst2'
  subst hst0
  rcases hcase with ⟨_, hft, _⟩ | ⟨_, hal⟩
  · exact absurd hft (by simp)
  · exact attemptLoop_false _ _ _ _ hal

theorem insert_true_tableOK {ph ph' : PerfectHashing} {key : Int}
    {draws : Nat → Int × Int}
    (hv : validDraws draws) (hstep : insert ph key draws = some (ph', true)) :
    ∃ bucket st', vecGet? ph.buckets (route ph key) = some bucket ∧
      vecGet? ph'.secondLevel (route ph key) = some st' ∧
      TableOK st' (bucket ++ [key]) := by
  obtain ⟨bucket, st0, hkb, hgs, st2, rfl, hcase⟩ := insert_cases hstep
  have h0 : 0 ≤ route ph key := vecGet?_nonneg hkb
  have hlts : (route ph key).toNat < ph.secondLevel.length := vecGet?_lt_length hgs
  refine ⟨bucket, st2, hkb, vecGet?_set_self h0 hlts, ?_⟩
  rcases hcase with ⟨rfl, _, rfl⟩ | ⟨hne, hal⟩
  · exact tableOK_single key
  · obtain ⟨i, t, _, _, hcf, hpl, rfl⟩ := attemptLoop_true _ _ _ _ hal
    refine tableOK_of_attempt_success (hv i) ?_ hcf hpl
    have hlen : 1 ≤ (bucket ++ [key]).length := by simp
    have hc : (1 : Int) ≤ ((bucket ++ [key]).length : Int) := by exact_mod_cast hlen
    nlinarith

/-! ### The claims -/

/-- C1 (counterexample): the no-false-positive property fails as stated for
the key `-1`, which collides with the empty-slot marker.  After constructing
a 1-bucket table with level-1 parameters `a1 = 1, b1 = 0` and successfully
inserting `0` and then `1` (the second build drawing `(a, b) = (1, 2)`), the
state is reachable, `-1` was never passed to `insert`, yet `search(-1)`
returns true: slot `((1·(-1)+2) mod PRIME) mod 4 = 1` holds the marker `-1`,
and `table[1] == key` compares `-1 == -1`. -/
theorem c1_counterexample :
    ReachableWith
      ⟨[[0, 1]], [⟨[-1, -1, 0, 1], 4, 1, 2, PRIME⟩], 1, 1, 0, PRIME⟩
      [(0, true), (1, true)] ∧
    (∀ r : Bool, ((-1 : Int), r) ∉ [((0 : Int), true), ((1 : Int), true)]) ∧
    search ⟨[[0, 1]], [⟨[-1, -1, 0, 1], 4, 1, 2, PRIME⟩], 1, 1, 0, PRIME⟩ (-1) =
      some true := by
  refine ⟨?_, ?_, by decide⟩
  · have h0 : ReachableWith (constructTable 1 1 0) [] :=
      ReachableWith.construct 1 1 0 (by decide) (by decide)
    have h1 : ReachableWith ⟨[[0]], [⟨[0], 1, 1, 0, PRIME⟩], 1, 1, 0, PRIME⟩
        ([] ++ [(0, true)]) :=
      ReachableWith.step _ _ _ 0 (fun _ => (1, 2)) true (fun _ => (by decide : validParams 1 2)) h0 (by decide)
    have h2 : ReachableWith ⟨[[0, 1]], [⟨[-1, -1, 0, 1], 4, 1, 2, PRIME⟩], 1, 1, 0, PRIME⟩
        (([] ++ [(0, true)]) ++ [(1, true)]) :=
      ReachableWith.step _ _ _ 1 (fun _ => (1, 2)) true (fun _ => (by decide : validParams 1 2)) h1 (by decide)
    simpa using h2
  · intro r hr
    simp at hr

/-- C1 (amended): for every non-negative key never passed to `insert`,
`search(key)` returns false, in every table state reachable by any sequence
of construct and insert calls. -/
theorem c1_no_false_positives {ph : PerfectHashing} {trace : List (Int × Bool)}
    {key : Int} (hre : ReachableWith ph trace) (hk : 0 ≤ key)
    (hnever : ∀ r : Bool, (key, r) ∉ trace) :
    search ph key = some false :=
  inv_search_false (reachable_inv hre) hk hnever

/-- Witness for C1 (amended) at a concrete reachable state: a freshly
constructed 3-bucket table with `a1 = 5, b1 = 7`, queried for the never
inserted key `42`. -/
theorem c1_no_false_positives_witness :
    search (constructTable 3 5 7) 42 = some false :=
  c1_no_false_positives (ReachableWith.construct 3 5 7 (by decide) (by decide))
    (by decide) (fun r => List.not_mem_nil _)

/-- C2: for every key whose `insert` call returned true, after any further
sequence of `insert` calls (successful or not), `search(key)` returns
true — no false negatives. -/
theorem c2_no_false_negatives {ph : PerfectHashing} {trace : List (Int × Bool)}
    {key : Int} (hre : ReachableWith ph trace) (hins : (key, true) ∈ trace) :
    search ph key = some true :=
  inv_search_true (reachable_inv hre) hins

/-- Witness for C2: after constructing one bucket and successfully inserting
key `7`, `search(7)` returns true. -/
theorem c2_no_false_negatives_witness :
    search ⟨[[7]], [⟨[7], 1, 1, 0, PRIME⟩], 1, 1, 0, PRIME⟩ 7 = some true := by
  have h0 : ReachableWith (constructTable 1 1 0) [] :=
    ReachableWith.construct 1 1 0 (by decide) (by decide)
  have h1 : ReachableWith ⟨[[7]], [⟨[7], 1, 1, 0, PRIME⟩], 1, 1, 0, PRIME⟩
      ([] ++ [(7, true)]) :=
    ReachableWith.step _ _ _ 7 (fun _ => (1, 0)) true (fun _ => (by decide : validParams 1 0)) h0 (by decide)
  exact c2_no_false_negatives h1 (by simp)

/-- C3: after every successful `buildSecondaryTable` over a bucket with
`k ≥ 2` keys, the installed secondary table has size `k·k` and the slots
`((a·key + b) mod p) mod k·k` computed with its stored parameters are
pairwise distinct across the bucket's keys. -/
theorem c3_collision_free_invariant {ph ph' : PerfectHashing} {bucketIdx : Int}
    {keys : List Int} {st st' : SecondaryTable} {draws : Nat → Int × Int}
    (hk : vecGet? ph.buckets bucketIdx = some keys) (h2 : 2 ≤ keys.length)
    (hs : vecGet? ph.secondLevel bucketIdx = some st)
    (hb : buildSecondaryTable ph bucketIdx draws = some (ph', true))
    (hs' : vecGet? ph'.secondLevel bucketIdx = some st') :
    st'.size = (keys.length : Int) * keys.length ∧
    List.Pairwise (fun x y => slotOf st' x ≠ slotOf st' y) keys := by
  rw [build_many hk h2 hs] at hb
  cases hal : attemptLoop keys ((keys.length : Int) * keys.length) draws 0 100 st with
  | none => rw [hal] at hb; simp at hb
  | some pr =>
    rw [hal] at hb
    simp only [Option.some_bind] at hb
    obtain ⟨st2, r2⟩ := pr
    have h' := Option.some_inj.mp hb
    have hph : _ = ph' := congrArg Prod.fst h'
    have hr : r2 = true := congrArg Prod.snd h'
    subst hr
    obtain ⟨i, t, _, _, hcf, hpl, hst2⟩ := attemptLoop_true _ _ _ _ hal
    have h0 : 0 ≤ bucketIdx := vecGet?_nonneg hs
    have hlts : bucketIdx.toNat < ph.secondLevel.length := vecGet?_lt_length hs
    have hst'2 : st' = st2 := by
      have hs'' : vecGet? (ph.secondLevel.set bucketIdx.toNat st2) bucketIdx = some st' := by
        rw [← hph] at hs'
        exact hs'
      rw [vecGet?_set_self h0 hlts] at hs''
      exact (Option.some_inj.mp hs'').symm
    subst hst'2
    subst hst2
    refine ⟨rfl, ?_⟩
    have hnd := isCollisionFree_nodup hcf
    exact List.pairwise_map.mp hnd

/-- Witness for C3: building over the 1-bucket key list `[0, 1]` with draw
`(a, b) = (1, 2)` yields table size `4 = 2·2` and distinct slots `2` and
`3`. -/
theorem c3_collision_free_invariant_witness :
    (⟨[-1, -1, 0, 1], 4, 1, 2, PRIME⟩ : SecondaryTable).size =
      ((([0, 1] : List Int).length : Int) * (([0, 1] : List Int).length : Int)) ∧
    List.Pairwise (fun x y =>
      slotOf ⟨[-1, -1, 0, 1], 4, 1, 2, PRIME⟩ x ≠
      slotOf ⟨[-1, -1, 0, 1], 4, 1, 2, PRIME⟩ y) [0, 1] :=
  @c3_collision_free_invariant ⟨[[0, 1]], [initSecondary], 1, 1, 0, PRIME⟩
    ⟨[[0, 1]], [⟨[-1, -1, 0, 1], 4, 1, 2, PRIME⟩], 1, 1, 0, PRIME⟩
    0 [0, 1] initSecondary ⟨[-1, -1, 0, 1], 4, 1, 2, PRIME⟩ (fun _ => (1, 2))
    (by decide) (by decide) (by decide) (by decide) (by decide)

/-- C5: inserting a key already present in its bucket's key list appends a
second copy and makes the secondary rebuild fail every attempt of the
collision check, so the `insert` returns false while the duplicated key
list stays installed. -/
theorem c5_duplicate_insert_fails {ph : PerfectHashing} {key : Int} {l : List Int}
    {st : SecondaryTable} {draws : Nat → Int × Int}
    (hkb : vecGet? ph.buckets (route ph key) = some l) (hmem : key ∈ l)
    (hgs : vecGet? ph.secondLevel (route ph key) = some st) :
    insert ph key draws = some
      ({ ph with
          buckets := ph.buckets.set (route ph key).toNat (l ++ [key]),
          secondLevel := ph.secondLevel.set (route ph key).toNat
            { st with p := PRIME } }, false) := by
  rw [insert_eq hkb]
  have h0 : 0 ≤ route ph key := vecGet?_nonneg hkb
  have hlt : (route ph key).toNat < ph.buckets.length := vecGet?_lt_length hkb
  have hkb1 : vecGet?
      ({ ph with buckets := ph.buckets.set (route ph key).toNat (l ++ [key]) } :
        PerfectHashing).buckets (route ph key) = some (l ++ [key]) :=
    vecGet?_set_self h0 hlt
  have hgs1 : vecGet?
      ({ ph with buckets := ph.buckets.set (route ph key).toNat (l ++ [key]) } :
        PerfectHashing).secondLevel (route ph key) = some st := hgs
  have hlpos : 1 ≤ l.length := List.length_pos.mpr (List.ne_nil_of_mem hmem)
  have h2 : 2 ≤ (l ++ [key]).length := by
    simp only [List.length_append, List.length_cons, List.length_nil]
    omega
  rw [build_many hkb1 h2 hgs1]
  have hfail : ∀ i : Nat, 0 ≤ i → i < 0 + 100 →
      isCollisionFree (l ++ [key]) (draws i).1 (draws i).2 PRIME
        (((l ++ [key]).length : Int) * ((l ++ [key]).length : Int)) = false := by
    intro i _ _
    apply isCollisionFree_of_not_nodup
    intro hnd
    rw [List.map_append] at hnd
    have hdisj := List.disjoint_of_nodup_append hnd
    exact hdisj (List.mem_map_of_mem _ hmem) (by simp)
  rw [attemptLoop_all_fail 100 0 st (by omega) hfail]
  rfl

/-- Witness for C5: re-inserting key `5` into the bucket that already holds
`[5]` leaves `[5, 5]` in the bucket and returns false. -/
theorem c5_duplicate_insert_fails_witness :
    insert (⟨[[5]], [⟨[5], 1, 1, 0, PRIME⟩], 1, 1, 0, PRIME⟩ : PerfectHashing) 5
      (fun _ => (1, 0)) =
    some (⟨[[5, 5]], [⟨[5], 1, 1, 0, PRIME⟩], 1, 1, 0, PRIME⟩, false) :=
  @c5_duplicate_insert_fails ⟨[[5]], [⟨[5], 1, 1, 0, PRIME⟩], 1, 1, 0, PRIME⟩
    5 [5] ⟨[5], 1, 1, 0, PRIME⟩ (fun _ => (1, 0))
    (by decide) (by decide) (by decide)

/-- C6: `buildSecondaryTable` terminates for every bucket key list: the empty
and singleton cases return immediately (for any draws), the randomized search
examines at most the first 100 draws (the result only depends on them), and
if none of those 100 draws is collision-free it returns failure, which
`insert` propagates as false (final conjunct: `insert` is exactly the append
followed by `buildSecondaryTable`). -/
theorem c6_bounded_attempts {ph : PerfectHashing} {bucketIdx : Int}
    {keys : List Int} {st : SecondaryTable}
    (hk : vecGet? ph.buckets bucketIdx = some keys)
    (hs : vecGet? ph.secondLevel bucketIdx = some st) :
    (keys = [] → ∀ draws, buildSecondaryTable ph bucketIdx draws =
      some ({ ph with secondLevel :=
        ph.secondLevel.set bucketIdx.toNat { st with size := 0 } }, true)) ∧
    (∀ key0, keys = [key0] → ∀ draws, buildSecondaryTable ph bucketIdx draws =
      some ({ ph with secondLevel :=
        ph.secondLevel.set bucketIdx.toNat ⟨[key0], 1, 1, 0, PRIME⟩ }, true)) ∧
    (2 ≤ keys.length → ∀ draws draws', (∀ i, i < 100 → draws i = draws' i) →
      buildSecondaryTable ph bucketIdx draws = buildSecondaryTable ph bucketIdx draws') ∧
    (2 ≤ keys.length → ∀ draws,
      (∀ i, i < 100 → isCollisionFree keys (draws i).1 (draws i).2 PRIME
        ((keys.length : Int) * keys.length) = false) →
      buildSecondaryTable ph bucketIdx draws =
        some ({ ph with secondLevel :=
          ph.secondLevel.set bucketIdx.toNat { st with p := PRIME } }, false)) ∧
    (∀ key draws bucket, vecGet? ph.buckets (route ph key) = some bucket →
      insert ph key draws = buildSecondaryTable
        { ph with buckets := ph.buckets.set (route ph key).toNat (bucket ++ [key]) }
        (route ph key) draws) := by
  refine ⟨?_, ?_, ?_, ?_, ?_⟩
  · intro he draws
    subst he
    exact build_nil hk hs
  · intro key0 he draws
    subst he
    exact build_single hk hs
  · intro h2 draws draws' hagree
    rw [build_many hk h2 hs, build_many hk h2 hs]
    rw [attemptLoop_agree 100 0 st draws draws' fun i hi1 hi2 => hagree i (by omega)]
  · intro h2 draws hfail
    rw [build_many hk h2 hs]
    rw [attemptLoop_all_fail 100 0 st (by omega) fun i hi1 hi2 => hfail i (by omega)]
    rfl
  · intro key draws bucket hkb
    exact insert_eq hkb

/-- Witness for C6: the empty-bucket case of a freshly constructed 1-bucket
table returns immediately with success. -/
theorem c6_bounded_attempts_witness :
    buildSecondaryTable (constructTable 1 1 0) 0 (fun _ => (1, 0)) =
      some (⟨[[]], [initSecondary], 1, 1, 0, PRIME⟩, true) :=
  (@c6_bounded_attempts (constructTable 1 1 0) 0 [] initSecondary
    (by decide) (by decide)).1 rfl (fun _ => (1, 0))

/-- C7: inserting a key into a table whose routed bucket is empty installs
the one-slot secondary table `[key]` with parameters `a = 1, b = 0,
p = PRIME`, returns true, makes `search(key)` return true, and performs no
randomized search: the result is the same for every draw stream. -/
theorem c7_singleton_insert {ph : PerfectHashing} {key : Int} {st : SecondaryTable}
    {draws : Nat → Int × Int}
    (hkb : vecGet? ph.buckets (route ph key) = some [])
    (hgs : vecGet? ph.secondLevel (route ph key) = some st) :
    insert ph key draws = some
      ({ ph with
          buckets := ph.buckets.set (route ph key).toNat [key],
          secondLevel := ph.secondLevel.set (route ph key).toNat
            ⟨[key], 1, 1, 0, PRIME⟩ }, true) ∧
    search { ph with
          buckets := ph.buckets.set (route ph key).toNat [key],
          secondLevel := ph.secondLevel.set (route ph key).toNat
            ⟨[key], 1, 1, 0, PRIME⟩ } key = some true ∧
    (∀ draws', insert ph key draws' = insert ph key draws) := by
  have h0 : 0 ≤ route ph key := vecGet?_nonneg hkb
  have hlt : (route ph key).toNat < ph.buckets.length := vecGet?_lt_length hkb
  have hlts : (route ph key).toNat < ph.secondLevel.length := vecGet?_lt_length hgs
  have hmain : ∀ d : Nat → Int × Int, insert ph key d = some
      ({ ph with
          buckets := ph.buckets.set (route ph key).toNat [key],
          secondLevel := ph.secondLevel.set (route ph key).toNat
            ⟨[key], 1, 1, 0, PRIME⟩ }, true) := by
    intro d
    rw [insert_eq hkb]
    have hkb1 : vecGet?
        ({ ph with buckets := ph.buckets.set (route ph key).toNat ([] ++ [key]) } :
          PerfectHashing).buckets (route ph key) = some [key] :=
      vecGet?_set_self h0 hlt
    have hgs1 : vecGet?
        ({ ph with buckets := ph.buckets.set (route ph key).toNat ([] ++ [key]) } :
          PerfectHashing).secondLevel (route ph key) = some st := hgs
    exact build_single hkb1 hgs1
  refine ⟨hmain draws, ?_, fun draws' => (hmain draws').trans (hmain draws).symm⟩
  have hset : vecGet?
      (ph.secondLevel.set (route ph key).toNat (⟨[key], 1, 1, 0, PRIME⟩ : SecondaryTable))
      (route ph key) = some ⟨[key], 1, 1, 0, PRIME⟩ :=
    vecGet?_set_self h0 hlts
  exact search_of_tableOK hset (tableOK_single key) (by simp)

/-- Witness for C7: inserting the single key `7` into a fresh 5-bucket table
(matching the spec's scenario) installs the one-slot table in bucket 2 and
`search(7)` returns true. -/
theorem c7_singleton_insert_witness :
    insert (constructTable 5 1 0) 7 (fun _ => (1, 0)) = some
      (⟨[[], [], [7], [], []],
        [initSecondary, initSecondary, ⟨[7], 1, 1, 0, PRIME⟩, initSecondary,
          initSecondary], 5, 1, 0, PRIME⟩, true) ∧
    search ⟨[[], [], [7], [], []],
        [initSecondary, initSecondary, ⟨[7], 1, 1, 0, PRIME⟩, initSecondary,
          initSecondary], 5, 1, 0, PRIME⟩ 7 = some true := by
  have h := @c7_singleton_insert (constructTable 5 1 0) 7 initSecondary
    (fun _ => (1, 0)) (by decide) (by decide)
  exact ⟨h.1, h.2.1⟩

/-- C4: when a rebuild fails (`insert` returns false), every key previously
successfully inserted is still found by `search`, and the failed build
leaves the previously installed secondary table's slot array, size and
parameters `a`, `b` in effect (`p` is rewritten, with the same value
`PRIME`, by the reference out-parameter of `randomizeHashFunction`). -/
theorem c4_failed_rebuild_preserves {ph ph' : PerfectHashing}
    {trace : List (Int × Bool)} {key key0 : Int} {draws : Nat → Int × Int}
    (hre : ReachableWith ph trace) (hv : validDraws draws)
    (hstep : insert ph key draws = some (ph', false))
    (hins : (key0, true) ∈ trace) :
    search ph' key0 = some true ∧
    (∀ st st', vecGet? ph.secondLevel (route ph key) = some st →
      vecGet? ph'.secondLevel (route ph key) = some st' →
      st'.table = st.table ∧ st'.size = st.size ∧ st'.a = st.a ∧ st'.b = st.b) := by
  constructor
  · have hre' : ReachableWith ph' (trace ++ [(key, false)]) :=
      ReachableWith.step _ _ _ key draws false hv hre hstep
    exact inv_search_true (reachable_inv hre') (List.mem_append_left _ hins)
  · intro st st' hst hst'
    rcases insert_false_preserves hstep st st' hst hst' with rfl | rfl
    · exact ⟨rfl, rfl, rfl, rfl⟩
    · exact ⟨rfl, rfl, rfl, rfl⟩

/-- Witness for C4: after successfully inserting `0`, the insert of `4`
fails (every draw `(1, 0)` collides on table size 4), and `search(0)` still
returns true afterwards. -/
theorem c4_failed_rebuild_preserves_witness :
    search ⟨[[0, 4]], [⟨[0], 1, 1, 0, PRIME⟩], 1, 1, 0, PRIME⟩ 0 = some true := by
  have h0 : ReachableWith (constructTable 1 1 0) [] :=
    ReachableWith.construct 1 1 0 (by decide) (by decide)
  have h1 : ReachableWith ⟨[[0]], [⟨[0], 1, 1, 0, PRIME⟩], 1, 1, 0, PRIME⟩
      ([] ++ [(0, true)]) :=
    ReachableWith.step _ _ _ 0 (fun _ => (1, 0)) true
      (fun _ => (by decide : validParams 1 0)) h0 (by decide)
  exact (@c4_failed_rebuild_preserves
    ⟨[[0]], [⟨[0], 1, 1, 0, PRIME⟩], 1, 1, 0, PRIME⟩
    ⟨[[0, 4]], [⟨[0], 1, 1, 0, PRIME⟩], 1, 1, 0, PRIME⟩
    ([] ++ [(0, true)]) 4 0 (fun _ => (1, 0))
    h1 (fun _ => (by decide : validParams 1 0)) (by decide) (by simp)).1

/-- C8: `insert(key)` mutates only the routed bucket's key list and
secondary table: the level-1 parameters `a1`, `b1`, `p1` and the bucket
count are unchanged, every other bucket and secondary table is unchanged,
and the routing function (hence every key's primary bucket index) is
unchanged. -/
theorem c8_insert_frame {ph ph' : PerfectHashing} {key : Int}
    {draws : Nat → Int × Int} {r : Bool}
    (hstep : insert ph key draws = some (ph', r)) :
    ph'.primarySize = ph.primarySize ∧ ph'.a1 = ph.a1 ∧ ph'.b1 = ph.b1 ∧
    ph'.p1 = ph.p1 ∧
    (∀ j : Nat, (j : Int) ≠ route ph key →
      ph'.buckets[j]? = ph.buckets[j]? ∧ ph'.secondLevel[j]? = ph.secondLevel[j]?) ∧
    (∀ key2, route ph' key2 = route ph key2) := by
  obtain ⟨bucket, st0, hkb, hgs, st2, rfl, _⟩ := insert_cases hstep
  have h0 : 0 ≤ route ph key := vecGet?_nonneg hkb
  refine ⟨rfl, rfl, rfl, rfl, ?_, fun key2 => rfl⟩
  intro j hj
  have hjne : (route ph key).toNat ≠ j := by omega
  exact ⟨List.getElem?_set_ne hjne, List.getElem?_set_ne hjne⟩

/-- Witness for C8: inserting `0` into a fresh 2-bucket table leaves bucket
1 and its secondary table untouched and the routing of key `9` unchanged. -/
theorem c8_insert_frame_witness :
    ((⟨[[0], []], [⟨[0], 1, 1, 0, PRIME⟩, initSecondary], 2, 1, 0, PRIME⟩ :
      PerfectHashing).buckets[1]? = (constructTable 2 1 0).buckets[1]? ∧
     (⟨[[0], []], [⟨[0], 1, 1, 0, PRIME⟩, initSecondary], 2, 1, 0, PRIME⟩ :
      PerfectHashing).secondLevel[1]? = (constructTable 2 1 0).secondLevel[1]?) ∧
    route (⟨[[0], []], [⟨[0], 1, 1, 0, PRIME⟩, initSecondary], 2, 1, 0, PRIME⟩ :
      PerfectHashing) 9 = route (constructTable 2 1 0) 9 := by
  have h := @c8_insert_frame (constructTable 2 1 0)
    ⟨[[0], []], [⟨[0], 1, 1, 0, PRIME⟩, initSecondary], 2, 1, 0, PRIME⟩ 0
    (fun _ => (1, 0)) true (by decide)
  exact ⟨h.2.2.2.2.1 1 (by decide), h.2.2.2.2.2 9⟩

/-- C9: for non-negative keys the slot computation
`((a·key + b) mod p) mod tableSize` lies in `[0, tableSize)` (with the
parameter ranges the code guarantees), so the probes of `search` on any
reachable state are in bounds (`search` never hits undefined behavior for
non-negative keys); for a negative key the truncating modulo can yield a
negative index, witnessed concretely at `key = -1`. -/
theorem c9_slot_bounds :
    (∀ key a b p ts : Int, 0 ≤ key → 1 ≤ a → 0 ≤ b → 0 < p → 0 < ts →
      0 ≤ (hashFunction key a b p).tmod ts ∧ (hashFunction key a b p).tmod ts < ts) ∧
    (∀ ph trace key, ReachableWith ph trace → 0 ≤ key →
      (search ph key).isSome = true) ∧
    (hashFunction (-1) 1 0 PRIME).tmod 4 < 0 := by
  refine ⟨?_, ?_, by decide⟩
  · intro key a b p ts hk ha hb hp hts
    exact tmod_bounds (hashFunction_nonneg hk (by omega) hb) hts
  · intro ph trace key hre hk
    exact inv_search_total (reachable_inv hre) hk

/-- Witness for C9: concrete instances of both in-bounds conclusions. -/
theorem c9_slot_bounds_witness :
    (0 ≤ (hashFunction 5 3 2 7).tmod 4 ∧ (hashFunction 5 3 2 7).tmod 4 < 4) ∧
    (search (constructTable 2 1 0) 3).isSome = true :=
  ⟨c9_slot_bounds.1 5 3 2 7 4 (by decide) (by decide) (by decide) (by decide)
      (by decide),
   c9_slot_bounds.2.1 (constructTable 2 1 0) [] 3
     (ReachableWith.construct 2 1 0 (by decide) (by decide)) (by decide)⟩

theorem vecGet?_congr_idx {α : Type} {l : List α} {i j : Int} (h : i = j) :
    vecGet? l i = vecGet? l j := by rw [h]

/-- C10: when `insert(key)` returns false the key still remains appended to
its bucket's key list, and when a later insert into the same bucket
succeeds, the rebuilt table covers the full list including that key, so
`search(key)` returns true even though no insert of `key` ever returned
true. -/
theorem c10_failed_key_recovered {ph ph1 ph2 : PerfectHashing} {key key2 : Int}
    {d1 d2 : Nat → Int × Int}
    (hv2 : validDraws d2)
    (h1 : insert ph key d1 = some (ph1, false))
    (hroute : route ph key2 = route ph key)
    (h2 : insert ph1 key2 d2 = some (ph2, true)) :
    (∀ l1, vecGet? ph1.buckets (route ph key) = some l1 → key ∈ l1) ∧
    search ph2 key = some true := by
  obtain ⟨bucket, st0, hkb, hgs, st2, rfl, _⟩ := insert_cases h1
  have h0 : 0 ≤ route ph key := vecGet?_nonneg hkb
  have hlt : (route ph key).toNat < ph.buckets.length := vecGet?_lt_length hkb
  have hget1 : vecGet? (ph.buckets.set (route ph key).toNat (bucket ++ [key]))
      (route ph key) = some (bucket ++ [key]) := vecGet?_set_self h0 hlt
  constructor
  · intro l1 hl1
    have hbl : bucket ++ [key] = l1 := Option.some_inj.mp (hget1.symm.trans hl1)
    rw [← hbl]
    simp
  · obtain ⟨bucket2x, st0x, hkb2x, hgs2x, st2x, rfl, hcase2⟩ := insert_cases h2
    obtain ⟨bucket2, st', hkb2, hst', htok⟩ := insert_true_tableOK hv2 h2
    have hkb2' := (vecGet?_congr_idx hroute.symm).trans hkb2
    have hb2 : bucket ++ [key] = bucket2 :=
      Option.some_inj.mp (hget1.symm.trans hkb2')
    have hkey : key ∈ bucket2 ++ [key2] := by
      rw [← hb2]
      simp
    have hst'' := (vecGet?_congr_idx hroute.symm).trans hst'
    exact search_of_tableOK hst'' htok hkey

/-- Witness for C10: key `4` fails to insert next to `0` (all draws
`(1, 0)` collide at size 4), stays in the bucket list `[0, 4]`, and after
key `1` is successfully inserted into the same bucket (size-9 rebuild over
`[0, 4, 1]`), `search(4)` returns true. -/
theorem c10_failed_key_recovered_witness :
    (4 : Int) ∈ [(0 : Int), 4] ∧
    search ⟨[[0, 4, 1]], [⟨[0, 1, -1, -1, 4, -1, -1, -1, -1], 9, 1, 0, PRIME⟩],
      1, 1, 0, PRIME⟩ 4 = some true := by
  have h := @c10_failed_key_recovered
    ⟨[[0]], [⟨[0], 1, 1, 0, PRIME⟩], 1, 1, 0, PRIME⟩
    ⟨[[0, 4]], [⟨[0], 1, 1, 0, PRIME⟩], 1, 1, 0, PRIME⟩
    ⟨[[0, 4, 1]], [⟨[0, 1, -1, -1, 4, -1, -1, -1, -1], 9, 1, 0, PRIME⟩],
      1, 1, 0, PRIME⟩
    4 1 (fun _ => (1, 0)) (fun _ => (1, 0))
    (fun _ => (by decide : validParams 1 0)) (by decide) (by decide) (by decide)
  exact ⟨h.1 [0, 4] (by decide), h.2⟩

end FKS
